import Mathlib

/-!
Verification of qutrit-calibration against its specification.

Shallow embedding of the relevant parts of the repository:
* `framework/utils.py` — `format_params` (decimal rounding with the
  `decimal.ROUND_DOWN` context, i.e. truncation toward zero).
* `framework/multi_analyses.py` — `MultipleCurveAnalysis._run_analysis`.
* `library/ef_fine_amp.py` — the fine-amplitude updater formulas.
* `library/ef_standard_rb.py` — the RB sequence generator and
  `set_transpile_options`.
* `framework/calibrations.py` — `QutritCalibrations.from_backend`
  control-channel map construction, including the uncaught `IndexError`
  of the `cmap[:, 0]` slice on a backend with an empty coupling map.

Python floats are modelled as exact rationals (ℚ); Python's
`decimal.Decimal(value)` is exact on a float input, and the context
rounding mode `decimal.ROUND_DOWN` truncates toward zero, which is what
`roundTowardZero` implements.  The narrowing `float(x)` of an exact
decimal back to a binary64 double is modelled by `nearestFloat` (round
to the nearest representable value, ties to even).
-/

namespace Utils

/-- Truncation of a rational toward zero, the semantics of
`decimal.ROUND_DOWN` for the integer part. -/
def roundTowardZero (x : ℚ) : ℤ :=
  if 0 ≤ x then ⌊x⌋ else ⌈x⌉

/-- The exact value of `round_val = round(Decimal(value), digit)` in
`format_params` (`framework/utils.py`, lines 25-28) under the
module-level context `decimal.getcontext().rounding = ROUND_DOWN`:
`digit` decimal digits are kept, truncating toward zero.  `Decimal`
arithmetic is exact here (`Decimal(value)` of a float is exact and the
default context precision of 28 significant digits covers every double
times `10^digit` for small `digit`).  The `float(round_val)` narrowing of
the returned value on line 29 is `format_params_float` below. -/
def format_params (value : ℚ) (digit : ℕ := 3) : ℚ :=
  ((roundTowardZero (value * 10 ^ digit) : ℤ) : ℚ) / 10 ^ digit

/-- Modelled from the spec's words for comparison (claim C6):
"round-half-down semantics, meaning ties round toward the next lower
magnitude and non-tie values round to nearest". -/
def roundHalfDownSpec (value : ℚ) (digit : ℕ := 3) : ℚ :=
  ((if 0 ≤ value * 10 ^ digit then ⌈value * 10 ^ digit - 1 / 2⌉
    else ⌊value * 10 ^ digit + 1 / 2⌋ : ℤ) : ℚ) / 10 ^ digit

/-- Round a rational to the nearest integer, ties to even — the IEEE-754
default rounding used when a value is converted to a binary64 `float`. -/
def roundNearestEven (y : ℚ) : ℤ :=
  if y - ⌊y⌋ < 1 / 2 then ⌊y⌋
  else if 1 / 2 < y - ⌊y⌋ then ⌊y⌋ + 1
  else if ⌊y⌋ % 2 = 0 then ⌊y⌋ else ⌊y⌋ + 1

/-- Python's `float(q)`: the IEEE-754 binary64 double nearest to `q`
(ties to even).  The significand of `q`'s binade is scaled to 53 bits
(`q * 2 ^ (52 - ⌊log₂ |q|⌋)` lies in `[2^52, 2^53)`), rounded to the
nearest integer, and scaled back.  Exponent overflow and subnormals lie
far outside the sweep values handled here and are not modelled. -/
def nearestFloat (q : ℚ) : ℚ :=
  if q = 0 then 0
  else
    ((roundNearestEven (q * 2 ^ (52 - Int.log 2 |q|)) : ℤ) : ℚ)
      * 2 ^ (Int.log 2 |q| - 52)

/-- Embedding of the full `format_params(value, digit=3)`
(`framework/utils.py`, lines 25-29) including the `float(round_val)`
narrowing of the returned value on line 29: the exact decimal truncation
`format_params` followed by rounding to the nearest binary64 double. -/
def format_params_float (value : ℚ) (digit : ℕ := 3) : ℚ :=
  nearestFloat (format_params value digit)

end Utils

namespace Utils

theorem roundTowardZero_intCast (n : ℤ) : roundTowardZero (n : ℚ) = n := by
  unfold roundTowardZero
  split <;> simp

theorem abs_sub_roundTowardZero_lt (y : ℚ) : |y - (roundTowardZero y : ℚ)| < 1 := by
  unfold roundTowardZero
  split
  case isTrue h =>
    have h1 : ((⌊y⌋ : ℚ)) ≤ y := Int.floor_le y
    have h2 : y < ⌊y⌋ + 1 := Int.lt_floor_add_one y
    rw [abs_of_nonneg (by linarith)]
    linarith
  case isFalse h =>
    have h1 : y ≤ ((⌈y⌉ : ℚ)) := Int.le_ceil y
    have h2 : ((⌈y⌉ : ℚ)) < y + 1 := Int.ceil_lt_add_one y
    rw [abs_of_nonpos (by linarith)]
    linarith

theorem abs_roundTowardZero_le (y : ℚ) : |(roundTowardZero y : ℚ)| ≤ |y| := by
  unfold roundTowardZero
  split
  case isTrue h =>
    have h0 : (0 : ℚ) ≤ ((⌊y⌋ : ℚ)) := by
      exact_mod_cast Int.floor_nonneg.mpr h
    rw [abs_of_nonneg h0, abs_of_nonneg h]
    exact Int.floor_le y
  case isFalse h =>
    push_neg at h
    have h0' : ⌈y⌉ ≤ (0 : ℤ) := Int.ceil_le.mpr (by exact_mod_cast h.le)
    have h0 : ((⌈y⌉ : ℚ)) ≤ 0 := by exact_mod_cast h0'
    rw [abs_of_nonpos h0, abs_of_nonpos h.le]
    have := Int.le_ceil y
    linarith

theorem int_log_two_eq (r : ℚ) (e : ℤ) (hr : 0 < r)
    (h1 : (2 : ℚ) ^ e ≤ r) (h2 : r < (2 : ℚ) ^ (e + 1)) : Int.log 2 r = e := by
  have hle : e ≤ Int.log 2 r := by
    rw [← Int.zpow_le_iff_le_log one_lt_two hr]
    exact_mod_cast h1
  have hlt : Int.log 2 r < e + 1 := by
    rw [← Int.lt_zpow_iff_log_lt one_lt_two hr]
    exact_mod_cast h2
  omega

theorem nearestFloat_eval (q : ℚ) (e : ℤ) (n : ℤ)
    (hq : 0 < q) (h1 : (2 : ℚ) ^ e ≤ q) (h2 : q < (2 : ℚ) ^ (e + 1))
    (hn : roundNearestEven (q * 2 ^ ((52 : ℤ) - e)) = n) :
    nearestFloat q = (n : ℚ) * 2 ^ (e - 52) := by
  have hlog : Int.log 2 |q| = e := by
    rw [abs_of_pos hq]
    exact int_log_two_eq q e hq h1 h2
  rw [nearestFloat, if_neg (ne_of_gt hq), hlog, hn]

end Utils

open Utils in
/-- C6 (counterexample): `format_params` does not round to nearest on
non-tie inputs.  At value `0.0019` it truncates to `0.001`, while the
spec's round-half-down semantics would give the nearest value `0.002`. -/
theorem format_params_not_round_half_down :
    format_params (19 / 10000) 3 = 1 / 1000 ∧
    roundHalfDownSpec (19 / 10000) 3 = 2 / 1000 ∧
    format_params (19 / 10000) 3 ≠ roundHalfDownSpec (19 / 10000) 3 := by
  have hc : (⌈(19 / 10000 * 10 ^ 3 : ℚ) - 1 / 2⌉ : ℤ) = 2 := by
    rw [Int.ceil_eq_iff]
    constructor <;> norm_num
  have h1 : format_params (19 / 10000) 3 = 1 / 1000 := by
    norm_num [format_params, roundTowardZero]
  have h2 : roundHalfDownSpec (19 / 10000) 3 = 2 / 1000 := by
    rw [roundHalfDownSpec, if_pos (by norm_num), hc]
    norm_num
  refine ⟨h1, h2, ?_⟩
  rw [h1, h2]
  norm_num

open Utils in
/-- C6 (amended): for every input value, the sweep-value formatting
function truncates toward zero at the given decimal precision
(`decimal.ROUND_DOWN`): the result is an integer multiple of `10^(-d)`,
lies within one such unit of the input, and never exceeds it in
magnitude; in particular `round_down(3.1415956, 3) = 3.141`. -/
theorem format_params_truncates_toward_zero (x : ℚ) (d : ℕ) :
    (∃ n : ℤ, format_params x d * 10 ^ d = (n : ℚ)) ∧
    |x - format_params x d| < 1 / 10 ^ d ∧
    |format_params x d| ≤ |x| ∧
    format_params (31415956 / 10000000) 3 = 3141 / 1000 := by
  have hp : (0 : ℚ) < 10 ^ d := by positivity
  have hp' : ((10 : ℚ) ^ d) ≠ 0 := ne_of_gt hp
  refine ⟨⟨roundTowardZero (x * 10 ^ d), ?_⟩, ?_, ?_, ?_⟩
  · rw [format_params, div_mul_cancel₀ _ hp']
  · have hlt := abs_sub_roundTowardZero_lt (x * 10 ^ d)
    rw [format_params]
    have hx : x - (roundTowardZero (x * 10 ^ d) : ℚ) / 10 ^ d
        = (x * 10 ^ d - (roundTowardZero (x * 10 ^ d) : ℚ)) / 10 ^ d := by
      field_simp
    rw [hx, abs_div, abs_of_pos hp, div_lt_div_iff hp hp, one_mul]
    calc |x * 10 ^ d - (roundTowardZero (x * 10 ^ d) : ℚ)| * 10 ^ d
        < 1 * 10 ^ d := by
          exact mul_lt_mul_of_pos_right hlt hp
      _ = 10 ^ d := one_mul _
  · have hle := abs_roundTowardZero_le (x * 10 ^ d)
    rw [format_params, abs_div, abs_of_pos hp, div_le_iff hp]
    calc |(roundTowardZero (x * 10 ^ d) : ℚ)| ≤ |x * 10 ^ d| := hle
      _ = |x| * 10 ^ d := by rw [abs_mul, abs_of_pos hp]
  · norm_num [format_params, roundTowardZero]

namespace MultiAnalyses

/-- One `AnalysisResultData` record as inspected by
`MultipleCurveAnalysis._run_analysis`: its `name` and the reduced
chi-square of `res.value` (`none` models `res.value` lacking a `.chisq`
attribute, which the code records as `np.nan`). -/
structure AnalysisResultData where
  name : String
  chisq : Option ℚ
  deriving DecidableEq, Repr

/-- The constant `PARAMS_ENTRY_PREFIX` from
`qiskit_experiments.curve_analysis.base_curve_analysis`. -/
def paramsEntryPrefixVal : String := "@Parameters_"

/-- Python's `s.startswith(p)`, stated structurally on the character
lists of the two strings. -/
def startsWithPy (s p : String) : Bool := p.data.isPrefixOf s.data

/-- Outcome of `analysis._run_analysis(experiment_data)` for one
candidate analysis on the shared dataset: `.error` models the candidate
raising an exception, `.ok` carries its result records and its figures
(figures abstracted as opaque identifiers). -/
abbrev Candidate := Except Unit (List AnalysisResultData × List Nat)

/-- The `for res in results ... break / else: continue` block
(`multi_analyses.py`, lines 43-51): the first result entry whose name
starts with `PARAMS_ENTRY_PREFIX` decides the candidate's chi-square;
`none` means no such entry exists and the candidate is dropped. -/
def extractChisq (results : List AnalysisResultData) : Option (Option ℚ) :=
  (results.find? (fun r => startsWithPy r.name paramsEntryPrefixVal)).map
    (fun r => r.chisq)

/-- One iteration of the candidate loop: `none` models `continue` (the
candidate raised, or produced no parameters entry); `some` carries the
appended `(results, figures, chisq)` triple. -/
def processCandidate (c : Candidate) :
    Option (List AnalysisResultData × List Nat × Option ℚ) :=
  match c with
  | .error _ => none
  | .ok (results, figures) =>
      (extractChisq results).map (fun ch => (results, figures, ch))

/-- The parallel lists `all_results`, `all_figures`, `chisqs` built by the
loop, zipped into one list of surviving candidates. -/
def survivors (analyses : List Candidate) :
    List (List AnalysisResultData × List Nat × Option ℚ) :=
  analyses.filterMap processCandidate

/-- Helper for `np.nanargmin` carrying the minimum value: index (first
occurrence) and value of the smallest non-`none` entry; `none` when every
entry is `none` (the all-NaN case, where `np.nanargmin` raises). -/
def nanargminAux : List (Option ℚ) → Option (ℕ × ℚ)
  | [] => none
  | none :: rest => (nanargminAux rest).map (fun p => (p.1 + 1, p.2))
  | some v :: rest =>
      match nanargminAux rest with
      | none => some (0, v)
      | some (j, w) => if w < v then some (j + 1, w) else some (0, v)

/-- Model of `np.nanargmin`: index of the smallest non-NaN entry, first occurrence
on ties; `none` models the `ValueError` raised on an all-NaN list. -/
def nanargmin (xs : List (Option ℚ)) : Option ℕ :=
  (nanargminAux xs).map (fun p => p.1)

/-- Embedding of `MultipleCurveAnalysis._run_analysis`
(`multi_analyses.py`, lines 28-60): run every candidate inside a
failure-isolating boundary, keep the survivors, return `([], [])` when
none survive, otherwise the results and figures of the candidate at
`np.nanargmin(chisqs)` (`.error` models the `ValueError` that
`np.nanargmin` raises when every recorded chi-square is NaN). -/
def run_analysis (analyses : List Candidate) :
    Except Unit (List AnalysisResultData × List Nat) :=
  let surv := survivors analyses
  if surv.isEmpty then
    .ok ([], [])
  else
    match nanargmin (surv.map (fun s => s.2.2)) with
    | none => .error ()
    | some i =>
        let best := surv.getD i ([], [], none)
        .ok (best.1, best.2.1)

/-- First candidate of the spec's concrete model-selection scenario: fits
with reduced chi-square `0.02`. -/
def exampleGoodCandidate : Candidate :=
  .ok ([⟨"@Parameters_curve_fit", some (2 / 100)⟩], [7])

/-- Second candidate of the spec's concrete scenario: raises during
fitting. -/
def exampleRaisingCandidate : Candidate := .error ()

/-- The `chisqs` list built by the candidate loop. -/
def chisqList (analyses : List Candidate) : List (Option ℚ) :=
  (survivors analyses).map (fun s => s.2.2)

theorem nanargminAux_none (xs : List (Option ℚ)) :
    nanargminAux xs = none → ∀ j : ℕ, xs.getD j none = none := by
  induction xs with
  | nil => intro _ j; simp
  | cons x rest ih =>
    intro h j
    cases x with
    | none =>
      simp only [nanargminAux, Option.map_eq_none'] at h
      cases j with
      | zero => simp
      | succ j => simpa using ih h j
    | some a =>
      simp only [nanargminAux] at h
      cases hrest : nanargminAux rest with
      | none => rw [hrest] at h; cases h
      | some p =>
        rw [hrest] at h
        obtain ⟨jr, u⟩ := p
        dsimp only at h
        split at h <;> cases h

theorem nanargminAux_mem (xs : List (Option ℚ)) :
    ∀ (i : ℕ) (v : ℚ), nanargminAux xs = some (i, v) →
      i < xs.length ∧ xs.getD i none = some v := by
  induction xs with
  | nil => intro i v h; simp [nanargminAux] at h
  | cons x rest ih =>
    intro i v h
    cases x with
    | none =>
      simp only [nanargminAux] at h
      cases hrest : nanargminAux rest with
      | none => rw [hrest] at h; cases h
      | some p =>
        rw [hrest] at h
        simp only [Option.map_some'] at h
        injection h with h'
        have hi : p.1 + 1 = i := congrArg Prod.fst h'
        have hv : p.2 = v := congrArg Prod.snd h'
        obtain ⟨hlen, hget⟩ := ih p.1 p.2 (by rw [hrest])
        subst hi hv
        exact ⟨Nat.succ_lt_succ hlen, by simpa using hget⟩
    | some a =>
      simp only [nanargminAux] at h
      cases hrest : nanargminAux rest with
      | none =>
        rw [hrest] at h
        injection h with h'
        have hi : 0 = i := congrArg Prod.fst h'
        have hv : a = v := congrArg Prod.snd h'
        subst hi hv
        exact ⟨Nat.succ_pos _, by simp⟩
      | some p =>
        rw [hrest] at h
        obtain ⟨jr, u⟩ := p
        dsimp only at h
        split at h
        · injection h with h'
          have hi : jr + 1 = i := congrArg Prod.fst h'
          have hv : u = v := congrArg Prod.snd h'
          obtain ⟨hlen, hget⟩ := ih jr u (by rw [hrest])
          subst hi hv
          exact ⟨Nat.succ_lt_succ hlen, by simpa using hget⟩
        · injection h with h'
          have hi : 0 = i := congrArg Prod.fst h'
          have hv : a = v := congrArg Prod.snd h'
          subst hi hv
          exact ⟨Nat.succ_pos _, by simp⟩

theorem nanargminAux_min (xs : List (Option ℚ)) :
    ∀ (i : ℕ) (v : ℚ), nanargminAux xs = some (i, v) →
      ∀ (j : ℕ) (w : ℚ), xs.getD j none = some w → v ≤ w := by
  induction xs with
  | nil => intro i v _ j w hw; simp at hw
  | cons x rest ih =>
    intro i v h j w hw
    cases x with
    | none =>
      simp only [nanargminAux] at h
      cases hrest : nanargminAux rest with
      | none => rw [hrest] at h; cases h
      | some p =>
        rw [hrest] at h
        simp only [Option.map_some'] at h
        injection h with h'
        have hv : p.2 = v := congrArg Prod.snd h'
        subst hv
        cases j with
        | zero => simp at hw
        | succ j => exact ih p.1 p.2 (by rw [hrest]) j w (by simpa using hw)
    | some a =>
      simp only [nanargminAux] at h
      cases hrest : nanargminAux rest with
      | none =>
        rw [hrest] at h
        injection h with h'
        have hv : a = v := congrArg Prod.snd h'
        subst hv
        cases j with
        | zero =>
          simp only [List.getD_cons_zero, Option.some.injEq] at hw
          exact le_of_eq hw
        | succ j =>
          have := nanargminAux_none rest hrest j
          rw [List.getD_cons_succ] at hw
          rw [this] at hw
          cases hw
      | some p =>
        rw [hrest] at h
        obtain ⟨jr, u⟩ := p
        dsimp only at h
        split at h
        case isTrue hc =>
          injection h with h'
          have hv : u = v := congrArg Prod.snd h'
          subst hv
          cases j with
          | zero =>
            simp only [List.getD_cons_zero, Option.some.injEq] at hw
            exact hw ▸ le_of_lt hc
          | succ j => exact ih jr u (by rw [hrest]) j w (by simpa using hw)
        case isFalse hc =>
          injection h with h'
          have hv : a = v := congrArg Prod.snd h'
          subst hv
          cases j with
          | zero =>
            simp only [List.getD_cons_zero, Option.some.injEq] at hw
            exact le_of_eq hw
          | succ j =>
            have hu := ih jr u (by rw [hrest]) j w (by simpa using hw)
            exact le_trans (not_lt.mp hc) hu

theorem nanargminAux_first (xs : List (Option ℚ)) :
    ∀ (i : ℕ) (v : ℚ), nanargminAux xs = some (i, v) →
      ∀ j : ℕ, j < i → ∀ w : ℚ, xs.getD j none = some w → v < w := by
  induction xs with
  | nil => intro i v h; simp [nanargminAux] at h
  | cons x rest ih =>
    intro i v h j hj w hw
    cases x with
    | none =>
      simp only [nanargminAux] at h
      cases hrest : nanargminAux rest with
      | none => rw [hrest] at h; cases h
      | some p =>
        rw [hrest] at h
        simp only [Option.map_some'] at h
        injection h with h'
        have hi : p.1 + 1 = i := congrArg Prod.fst h'
        have hv : p.2 = v := congrArg Prod.snd h'
        subst hi hv
        cases j with
        | zero => simp at hw
        | succ j =>
          exact ih p.1 p.2 (by rw [hrest]) j (Nat.lt_of_succ_lt_succ hj) w
            (by simpa using hw)
    | some a =>
      simp only [nanargminAux] at h
      cases hrest : nanargminAux rest with
      | none =>
        rw [hrest] at h
        injection h with h'
        have hi : 0 = i := congrArg Prod.fst h'
        subst hi
        cases hj
      | some p =>
        rw [hrest] at h
        obtain ⟨jr, u⟩ := p
        dsimp only at h
        split at h
        case isTrue hc =>
          injection h with h'
          have hi : jr + 1 = i := congrArg Prod.fst h'
          have hv : u = v := congrArg Prod.snd h'
          subst hi hv
          cases j with
          | zero =>
            simp only [List.getD_cons_zero, Option.some.injEq] at hw
            exact hw ▸ hc
          | succ j =>
            exact ih jr u (by rw [hrest]) j (Nat.lt_of_succ_lt_succ hj) w
              (by simpa using hw)
        case isFalse hc =>
          injection h with h'
          have hi : 0 = i := congrArg Prod.fst h'
          subst hi
          cases hj

theorem getD_map_chisq (l : List (List AnalysisResultData × List Nat × Option ℚ))
    (i : ℕ) (hi : i < l.length) :
    (l.map (fun s => s.2.2)).getD i none = (l.getD i ([], [], none)).2.2 := by
  rw [List.getD_eq_getElem?_getD, List.getD_eq_getElem?_getD, List.getElem?_map,
    List.getElem?_eq_getElem hi]
  rfl

theorem run_analysis_ok_spec (analyses : List Candidate)
    (r : List AnalysisResultData) (f : List Nat)
    (hne : survivors analyses ≠ [])
    (h : run_analysis analyses = Except.ok (r, f)) :
    ∃ (i : ℕ) (v : ℚ), i < (survivors analyses).length ∧
      (survivors analyses).getD i ([], [], none) = (r, f, some v) ∧
      (∀ (j : ℕ) (w : ℚ), (chisqList analyses).getD j none = some w → v ≤ w) ∧
      (∀ j : ℕ, j < i → ∀ w : ℚ,
        (chisqList analyses).getD j none = some w → v < w) := by
  have hempty : (survivors analyses).isEmpty = false := by
    cases hsurv : survivors analyses with
    | nil => exact absurd hsurv hne
    | cons a l => rfl
  simp only [run_analysis, hempty, Bool.false_eq_true, if_false] at h
  cases hmin : nanargmin ((survivors analyses).map fun s => s.2.2) with
  | none => rw [hmin] at h; cases h
  | some i =>
    rw [hmin] at h
    dsimp only at h
    injection h with h'
    have hr : ((survivors analyses).getD i ([], [], none)).1 = r :=
      congrArg Prod.fst h'
    have hf : ((survivors analyses).getD i ([], [], none)).2.1 = f :=
      congrArg Prod.snd h'
    obtain ⟨p, haux, hp1⟩ := Option.map_eq_some'.mp hmin
    obtain ⟨j0, v⟩ := p
    dsimp only at hp1
    subst hp1
    obtain ⟨hlen, hget⟩ := nanargminAux_mem _ j0 v haux
    rw [List.length_map] at hlen
    have hchi : ((survivors analyses).getD j0 ([], [], none)).2.2 = some v := by
      rw [← getD_map_chisq _ j0 hlen]
      exact hget
    refine ⟨j0, v, hlen, ?_, ?_, ?_⟩
    · rw [← hr, ← hf, ← hchi]
    · exact fun j w hw => nanargminAux_min _ j0 v haux j w hw
    · exact fun j hj w hw => nanargminAux_first _ j0 v haux j hj w hw

theorem run_analysis_error_isolated (xs ys : List Candidate) (e : Unit) :
    run_analysis (xs ++ Except.error e :: ys) = run_analysis (xs ++ ys) := by
  have hsurv : survivors (xs ++ Except.error e :: ys) = survivors (xs ++ ys) := by
    simp [survivors, List.filterMap_append, List.filterMap_cons, processCandidate]
  unfold run_analysis
  rw [hsurv]

end MultiAnalyses

open MultiAnalyses in
/-- C2: in `MultipleCurveAnalysis._run_analysis`, a candidate that raises
is dropped without aborting the others (inserting a raising candidate
anywhere leaves the outcome unchanged); whenever the selector returns a
non-empty survivor set's result, that result is one surviving candidate
returned in full (result records and figures together with its recorded
chi-square), its chi-square is the numerically smallest among all
survivors that produced a value, and every earlier survivor with a value
is strictly larger (first-occurrence tie-breaking); and on the concrete
scenario of one candidate fitting with chi-square `0.02` and one raising,
the first candidate's results and figures are returned unmodified. -/
theorem multi_analysis_best_chisq_selection (analyses : List Candidate)
    (r : List AnalysisResultData) (f : List Nat)
    (hne : survivors analyses ≠ [])
    (h : run_analysis analyses = Except.ok (r, f)) :
    (∃ (i : ℕ) (v : ℚ), i < (survivors analyses).length ∧
      (survivors analyses).getD i ([], [], none) = (r, f, some v) ∧
      (∀ (j : ℕ) (w : ℚ), (chisqList analyses).getD j none = some w → v ≤ w) ∧
      (∀ j : ℕ, j < i → ∀ w : ℚ,
        (chisqList analyses).getD j none = some w → v < w)) ∧
    (∀ (xs ys : List Candidate) (e : Unit),
      run_analysis (xs ++ Except.error e :: ys) = run_analysis (xs ++ ys)) ∧
    run_analysis [exampleGoodCandidate, exampleRaisingCandidate]
      = Except.ok ([⟨"@Parameters_curve_fit", some (2 / 100)⟩], [7]) :=
  ⟨run_analysis_ok_spec analyses r f hne h, run_analysis_error_isolated, rfl⟩

open MultiAnalyses in
theorem multi_analysis_best_chisq_selection_witness :
    (∃ (i : ℕ) (v : ℚ),
      i < (survivors [exampleGoodCandidate, exampleRaisingCandidate]).length ∧
      (survivors [exampleGoodCandidate, exampleRaisingCandidate]).getD i
          ([], [], none)
        = ([⟨"@Parameters_curve_fit", some (2 / 100)⟩], [7], some v) ∧
      (∀ (j : ℕ) (w : ℚ),
        (chisqList [exampleGoodCandidate, exampleRaisingCandidate]).getD j none
          = some w → v ≤ w) ∧
      (∀ j : ℕ, j < i → ∀ w : ℚ,
        (chisqList [exampleGoodCandidate, exampleRaisingCandidate]).getD j none
          = some w → v < w)) ∧
    (∀ (xs ys : List Candidate) (e : Unit),
      run_analysis (xs ++ Except.error e :: ys) = run_analysis (xs ++ ys)) ∧
    run_analysis [exampleGoodCandidate, exampleRaisingCandidate]
      = Except.ok ([⟨"@Parameters_curve_fit", some (2 / 100)⟩], [7]) :=
  multi_analysis_best_chisq_selection
    [exampleGoodCandidate, exampleRaisingCandidate]
    [⟨"@Parameters_curve_fit", some (2 / 100)⟩] [7]
    (by
      rw [show survivors [exampleGoodCandidate, exampleRaisingCandidate]
          = [([⟨"@Parameters_curve_fit", some (2 / 100)⟩], [7], some (2 / 100))]
        from rfl]
      exact List.cons_ne_nil _ _)
    rfl

open MultiAnalyses in
/-- C3: whenever zero candidate analyses survive, the selector returns an
empty result list and an empty figure list rather than raising. -/
theorem run_analysis_empty_when_no_survivors (analyses : List Candidate)
    (h : survivors analyses = []) :
    run_analysis analyses = Except.ok ([], []) := by
  unfold run_analysis
  rw [h]
  rfl

open MultiAnalyses in
theorem run_analysis_empty_when_no_survivors_witness :
    survivors [Except.error (), Except.ok ([⟨"other", some 5⟩], [1])] = [] ∧
    run_analysis [Except.error (), Except.ok ([⟨"other", some 5⟩], [1])]
      = Except.ok ([], []) :=
  ⟨rfl, run_analysis_empty_when_no_survivors _ rfl⟩

open MultiAnalyses in
/-- C4: a candidate that completes with a parameters entry whose value
lacks a chi-square is kept as a survivor with `none` (NaN) recorded in
place of a chi-square, and whenever `np.nanargmin` selects an index, the
selected entry carries an actual numeric chi-square, so a NaN candidate
is never selected over one with a numeric chi-square. -/
theorem nan_chisq_recorded_never_selected (analyses : List Candidate)
    (results : List AnalysisResultData) (figs : List Nat) (i : ℕ)
    (h1 : extractChisq results = some none)
    (h2 : nanargmin (chisqList analyses) = some i) :
    processCandidate (Except.ok (results, figs)) = some (results, figs, none) ∧
    ∃ v : ℚ, (chisqList analyses).getD i none = some v := by
  constructor
  · simp [processCandidate, h1]
  · obtain ⟨p, haux, hp1⟩ := Option.map_eq_some'.mp h2
    obtain ⟨j0, v⟩ := p
    dsimp only at hp1
    subst hp1
    exact ⟨v, (nanargminAux_mem _ _ v haux).2⟩

open MultiAnalyses in
theorem nan_chisq_recorded_never_selected_witness :
    processCandidate (Except.ok ([⟨"@Parameters_a", (none : Option ℚ)⟩], [0]))
      = some ([⟨"@Parameters_a", none⟩], [0], none) ∧
    ∃ v : ℚ,
      (chisqList [Except.ok ([⟨"@Parameters_a", none⟩], [0]),
        Except.ok ([⟨"@Parameters_b", some 2⟩], [1])]).getD 1 none = some v :=
  nan_chisq_recorded_never_selected
    [Except.ok ([⟨"@Parameters_a", none⟩], [0]),
      Except.ok ([⟨"@Parameters_b", some 2⟩], [1])]
    [⟨"@Parameters_a", none⟩] [0] 1 rfl rfl

namespace EfFineAmp

/-- The target angle `np.pi / 2` of `FineEFSXAmplitudeCal.update_calibrations`
(`ef_fine_amp.py`, line 164). -/
noncomputable def sx12_target_angle : ℝ := Real.pi / 2

/-- The target angle `np.pi` of `FineEFXAmplitudeCal.update_calibrations`
(`ef_fine_amp.py`, line 223). -/
noncomputable def x12_target_angle : ℝ := Real.pi

/-- The new `sx12` amplitude committed by
`FineEFSXAmplitudeCal.update_calibrations` (`ef_fine_amp.py`, line 165):
`new_amp = current_amp * target_anle / (target_anle + angle_error)`. -/
noncomputable def sx12_new_amp (current_amp angle_error : ℝ) : ℝ :=
  current_amp * sx12_target_angle / (sx12_target_angle + angle_error)

/-- The new `x12` amplitude committed by
`FineEFXAmplitudeCal.update_calibrations` (`ef_fine_amp.py`, line 224). -/
noncomputable def x12_new_amp (current_amp angle_error : ℝ) : ℝ :=
  current_amp * x12_target_angle / (x12_target_angle + angle_error)

end EfFineAmp

namespace EfStandardRB

/-- Embedding of `BaseEFRB1Q.set_transpile_options` (`ef_standard_rb.py`, lines 98-99):
unconditionally raises
`RuntimeError(f"{self.__class__.__name__} doesn't relay on Qiskit
transpiler.")`.  The experiment state `self` would be the success value,
so the unconditional `.error` shows no run ever returns (or modifies) it. -/
def set_transpile_options {Exp : Type} (self : Exp) (className : String)
    (fields : List (String × String)) : Except String Exp :=
  Except.error (className ++ " doesn't relay on Qiskit transpiler.")

end EfStandardRB

open EfFineAmp in
/-- C5: the fine-amplitude updater computes
`new = current * target / (target + measured_error)` with `target = π/2`
for the `sx12` variant and `target = π` for the `x12` variant; at
`current = 0.2`, `target = π/2`, `measured_error = 0.1·(π/2)` the new
value is `2/11 = 0.1818...`. -/
theorem fine_amp_update_formula :
    (∀ current_amp angle_error : ℝ,
      sx12_new_amp current_amp angle_error
        = current_amp * (Real.pi / 2) / (Real.pi / 2 + angle_error)) ∧
    (∀ current_amp angle_error : ℝ,
      x12_new_amp current_amp angle_error
        = current_amp * Real.pi / (Real.pi + angle_error)) ∧
    sx12_new_amp (2 / 10) (1 / 10 * (Real.pi / 2)) = 2 / 11 := by
  refine ⟨fun _ _ => rfl, fun _ _ => rfl, ?_⟩
  have ht : Real.pi / 2 + 1 / 10 * (Real.pi / 2) = 11 / 10 * (Real.pi / 2) := by
    ring
  have hne : (11 : ℝ) / 10 * (Real.pi / 2) ≠ 0 :=
    ne_of_gt (by positivity)
  rw [sx12_new_amp, sx12_target_angle, ht, div_eq_iff hne]
  ring

open EfStandardRB in
/-- C10: for every EF randomized-benchmarking experiment,
`set_transpile_options` always raises `RuntimeError` with the fixed
message and never returns a (possibly modified) experiment. -/
theorem set_transpile_options_always_raises {Exp : Type} (self : Exp)
    (className : String) (fields : List (String × String)) :
    set_transpile_options self className fields
      = Except.error (className ++ " doesn't relay on Qiskit transpiler.") ∧
    ∀ modified : Exp,
      set_transpile_options self className fields ≠ Except.ok modified :=
  ⟨rfl, fun _ h => Except.noConfusion h⟩

open EfStandardRB in
theorem set_transpile_options_always_raises_witness :
    set_transpile_options () "EFStandardRB1Q" []
      = Except.error "EFStandardRB1Q doesn't relay on Qiskit transpiler." ∧
    set_transpile_options () "EFStandardRB1Q" [] ≠ Except.ok () :=
  ⟨(set_transpile_options_always_raises () "EFStandardRB1Q" []).1,
   (set_transpile_options_always_raises () "EFStandardRB1Q" []).2 ()⟩

namespace EfStandardRB

/-- A single-qubit Clifford group element, represented by the 2×2 unitary
matrix `elm.to_matrix()` through which `EFStandardRB1Q._generate_sequence`
composes and inverts it.  qiskit's `a.compose(b)` ("apply `a`, then `b`")
has matrix `b @ a`, and `.adjoint()` is the conjugate transpose `star`. -/
abbrev CliffordElm := Matrix.unitaryGroup (Fin 2) ℂ

/-- The running total `composed` after folding
`composed = composed.compose(elm)` over the sampled elements, starting
from the identity Clifford (`ef_standard_rb.py`, lines 189-192). -/
noncomputable def composeAll (elems : List CliffordElm) : CliffordElm :=
  elems.foldl (fun composed elm => elm * composed) 1

/-- Embedding of `EFStandardRB1Q._generate_sequence(length, rng)` at the group-element
level (`ef_standard_rb.py`, lines 187-195): yield each sampled element in
order and then, only when `length > 0`, the adjoint of the running total.
The seeded random generator is abstracted as the infinite sequence
`sample` of Clifford elements it produces. -/
noncomputable def generate_sequence (sample : ℕ → CliffordElm) (length : ℕ) :
    List CliffordElm :=
  let elems := (List.range length).map sample
  if 0 < length then elems ++ [star (composeAll elems)] else elems

/-- The unitary implemented by the yielded gate sequence in circuit order:
a later gate multiplies on the left. -/
noncomputable def sequenceUnitary (gates : List CliffordElm) : CliffordElm :=
  gates.foldl (fun acc g => g * acc) 1

end EfStandardRB

open EfStandardRB in
/-- C1: in full-group RB mode, for every length ≥ 1 and every random
seed (abstracted as the sampled element sequence), the product of all
yielded group elements — the sampled elements followed by the final
adjoint element — is the identity, hence the identity matrix up to (here,
trivial) global phase. -/
theorem rb_sequence_composes_to_identity (sample : ℕ → CliffordElm)
    (length : ℕ) (h : 1 ≤ length) :
    sequenceUnitary (generate_sequence sample length) = 1 := by
  rw [generate_sequence]
  rw [if_pos (show 0 < length from h)]
  rw [sequenceUnitary, List.foldl_append]
  simp only [List.foldl_cons, List.foldl_nil]
  exact unitary.star_mul_self _

open EfStandardRB in
theorem rb_sequence_composes_to_identity_witness :
    1 ≤ 1 ∧ sequenceUnitary (generate_sequence (fun _ => 1) 1) = 1 :=
  ⟨le_refl 1, rb_sequence_composes_to_identity (fun _ => 1) 1 (le_refl 1)⟩

open EfStandardRB in
/-- C8 (counterexample): at `length = 0` the generated sequence is empty —
it is not the one-element sequence consisting of the adjoint of the
identity, because the terminal adjoint step is guarded by `length > 0`. -/
theorem rb_length_zero_not_adjoint_of_identity :
    generate_sequence (fun _ => 1) 0 = ([] : List CliffordElm) ∧
    generate_sequence (fun _ => 1) 0 ≠ [star (1 : CliffordElm)] := by
  constructor
  · rfl
  · intro hc
    have : ([] : List CliffordElm) = [star (1 : CliffordElm)] := hc
    simp at this

open EfStandardRB in
/-- C8 (amended): in full-group RB mode with `length = 0`, for every
random seed the generated sequence is empty: no element is sampled and
the adjoint-of-running-total step is skipped entirely. -/
theorem rb_length_zero_empty (sample : ℕ → CliffordElm) :
    generate_sequence sample 0 = [] := rfl

namespace Calibrations

/-- Static topology data of the backend consumed by
`QutritCalibrations.from_backend`: qubit count, directed coupling map, and
`backend_data.control_channel(edge)` as the list of channels for an edge
(abstracted as channel identifiers; `[]` models an edge for which the
lookup yields nothing, so any indexing raises `IndexError`). -/
structure BackendTopology where
  num_qubits : ℕ
  coupling_map : List (ℕ × ℕ)
  control_channels : ℕ × ℕ → List ℕ

/-- The content of the per-qubit `try` block (`calibrations.py`, lines
56-58) once `cmap` is known to be a well-formed 2-D array:
`available_cmap = cmap[np.nonzero(cmap[:, 0] == qubit)]`, then
`backend_data.control_channel(tuple(available_cmap[0]))[0]`; `none`
models the caught `IndexError` (no edge starting at `qubit`, or an edge
with no control channel). -/
def lookupControlChannel (b : BackendTopology) (qubit : ℕ) : Option ℕ :=
  match b.coupling_map.filter (fun p => p.1 == qubit) with
  | [] => none
  | edge :: _ => (b.control_channels edge).head?

/-- The per-qubit channel search including its uncaught error path: the
slice `cmap[:, 0]` on line 56 is evaluated before the `try` of lines
57-64, and on a backend with an empty coupling map `cmap` is a 1-D empty
array, so the slice raises an IndexError that nothing catches (modelled
as `.error`).  On a non-empty (2-D) coupling map the `try` confines the
`IndexError` of the lookups, giving `lookupControlChannel`. -/
def findControlChannel (b : BackendTopology) (qubit : ℕ) :
    Except Unit (Option ℕ) :=
  if b.coupling_map.isEmpty then Except.error ()
  else Except.ok (lookupControlChannel b qubit)

/-- One iteration of the construction loop: append `(qubit,) ↦ channel`
to `control_channel_map`, or append the qubit to `blacklist` (after a
warning) and continue; an uncaught error propagates. -/
def registerQubit (b : BackendTopology) (acc : List (ℕ × ℕ) × List ℕ)
    (qubit : ℕ) : Except Unit (List (ℕ × ℕ) × List ℕ) :=
  (findControlChannel b qubit).bind (fun found =>
    match found with
    | none => Except.ok (acc.1, acc.2 ++ [qubit])
    | some channel => Except.ok (acc.1 ++ [(qubit, channel)], acc.2))

/-- The construction loop of `QutritCalibrations.from_backend`
(`calibrations.py`, lines 50-65): fold `registerQubit` over the qubits in
order, short-circuiting on an uncaught error.  Returns
`(control_channel_map, blacklist)` as association/qubit lists. -/
def buildControlChannelMap (b : BackendTopology) :
    Except Unit (List (ℕ × ℕ) × List ℕ) :=
  (List.range b.num_qubits).foldlM (registerQubit b) ([], [])

theorem except_ok_bind {α β γ : Type} (a : α) (f : α → Except γ β) :
    (Except.ok a : Except γ α) >>= f = f a := rfl

theorem registerQubit_of_none (b : BackendTopology)
    (hcm : b.coupling_map.isEmpty = false) (acc : List (ℕ × ℕ) × List ℕ)
    (q : ℕ) (hq : lookupControlChannel b q = none) :
    registerQubit b acc q = Except.ok (acc.1, acc.2 ++ [q]) := by
  rw [registerQubit, findControlChannel, hcm]
  rw [if_neg (by simp)]
  rw [hq]
  rfl

theorem registerQubit_of_some (b : BackendTopology)
    (hcm : b.coupling_map.isEmpty = false) (acc : List (ℕ × ℕ) × List ℕ)
    (q c : ℕ) (hq : lookupControlChannel b q = some c) :
    registerQubit b acc q = Except.ok (acc.1 ++ [(q, c)], acc.2) := by
  rw [registerQubit, findControlChannel, hcm]
  rw [if_neg (by simp)]
  rw [hq]
  rfl

theorem buildControlChannelMap_foldlM (b : BackendTopology)
    (hcm : b.coupling_map.isEmpty = false)
    (l : List ℕ) (acc : List (ℕ × ℕ) × List ℕ) :
    l.foldlM (registerQubit b) acc
    = Except.ok
        (acc.1 ++ l.filterMap
           (fun q => (lookupControlChannel b q).map (fun c => (q, c))),
         acc.2 ++ l.filter (fun q => (lookupControlChannel b q).isNone)) := by
  induction l generalizing acc with
  | nil => simp [List.foldlM_nil]; rfl
  | cons q rest ih =>
    rw [List.foldlM_cons]
    cases hq : lookupControlChannel b q with
    | none =>
      rw [registerQubit_of_none b hcm acc q hq, except_ok_bind, ih]
      simp [List.filterMap_cons, List.filter_cons, hq]
    | some c =>
      rw [registerQubit_of_some b hcm acc q c hq, except_ok_bind, ih]
      simp [List.filterMap_cons, List.filter_cons, hq]

theorem buildControlChannelMap_eq (b : BackendTopology)
    (hcm : b.coupling_map ≠ []) :
    buildControlChannelMap b
    = Except.ok
        ((List.range b.num_qubits).filterMap
           (fun q => (lookupControlChannel b q).map (fun c => (q, c))),
         (List.range b.num_qubits).filter
           (fun q => (lookupControlChannel b q).isNone)) := by
  have hcm' : b.coupling_map.isEmpty = false := by
    cases h : b.coupling_map with
    | nil => exact absurd h hcm
    | cons a l => rfl
  rw [buildControlChannelMap, buildControlChannelMap_foldlM b hcm']
  simp

/-- A two-qubit backend whose only edge `(0, 1)` carries control channel
`42`; qubit `1` has no outgoing edge and therefore no control channel. -/
def exampleBackend : BackendTopology where
  num_qubits := 2
  coupling_map := [(0, 1)]
  control_channels := fun edge => if edge = (0, 1) then [42] else []

/-- A single-qubit backend: its coupling map is empty, so no qubit has a
control channel and `np.asarray` of the empty coupling map is 1-D. -/
def singleQubitBackend : BackendTopology :=
  ⟨1, [], fun _ => []⟩

end Calibrations

open Calibrations in
/-- C9 (counterexample): a single-qubit backend, whose coupling map is
empty.  `cmap = np.asarray([], dtype=int)` is a 1-D empty array, so the
slice `cmap[:, 0]` on line 56 raises an IndexError outside the `try`:
store construction raises instead of completing, even though qubit 0 is
exactly a qubit for which no control channel can be found and should,
per the claim, have been blacklisted. -/
theorem from_backend_raises_on_empty_coupling_map :
    buildControlChannelMap singleQubitBackend = Except.error () ∧
    lookupControlChannel singleQubitBackend 0 = none ∧
    ∀ result, buildControlChannelMap singleQubitBackend ≠ Except.ok result := by
  refine ⟨rfl, rfl, ?_⟩
  intro result h
  exact Except.noConfusion h

open Calibrations in
/-- C9 (amended): provided the backend's coupling map is non-empty (so
the slice `cmap[:, 0]` is well-formed), store construction completes,
returning a control-channel map and blacklist such that every in-range
qubit without a findable control channel is blacklisted, with a warning,
and gets no map entry, while every in-range qubit with a control channel
receives its map entry and stays off the blacklist.  With an empty
coupling map the construction instead raises an uncaught IndexError
before any qubit is processed (see the counterexample). -/
theorem from_backend_blacklists_unusable_qubits (b : BackendTopology)
    (hcm : b.coupling_map ≠ []) (q : ℕ) (hq : q < b.num_qubits) :
    ∃ channelMap blacklist,
      buildControlChannelMap b = Except.ok (channelMap, blacklist) ∧
      (lookupControlChannel b q = none →
        q ∈ blacklist ∧ ∀ channel, (q, channel) ∉ channelMap) ∧
      (∀ channel, lookupControlChannel b q = some channel →
        (q, channel) ∈ channelMap ∧ q ∉ blacklist) := by
  refine ⟨_, _, buildControlChannelMap_eq b hcm, ?_, ?_⟩
  · intro hnone
    constructor
    · simp [List.mem_filter, List.mem_range, hq, hnone]
    · intro channel hmem
      simp only [List.mem_filterMap, Option.map_eq_some'] at hmem
      obtain ⟨q', _, c', hfind, hpair⟩ := hmem
      have hq' : q' = q := congrArg Prod.fst hpair
      rw [hq'] at hfind
      rw [hnone] at hfind
      cases hfind
  · intro channel hsome
    constructor
    · simp only [List.mem_filterMap]
      exact ⟨q, by simpa [List.mem_range] using hq, by simp [hsome]⟩
    · simp [List.mem_filter, hsome]

open Calibrations in
theorem from_backend_blacklists_unusable_qubits_witness :
    (∃ channelMap blacklist,
        buildControlChannelMap exampleBackend
          = Except.ok (channelMap, blacklist) ∧
        (1 : ℕ) ∈ blacklist ∧ ∀ channel, ((1 : ℕ), channel) ∉ channelMap) ∧
    (∃ channelMap blacklist,
        buildControlChannelMap exampleBackend
          = Except.ok (channelMap, blacklist) ∧
        ((0 : ℕ), (42 : ℕ)) ∈ channelMap ∧ (0 : ℕ) ∉ blacklist) := by
  constructor
  · obtain ⟨m, bl, hok, hnone, _⟩ :=
      from_backend_blacklists_unusable_qubits exampleBackend (by decide) 1
        (by decide)
    obtain ⟨h1, h2⟩ := hnone rfl
    exact ⟨m, bl, hok, h1, h2⟩
  · obtain ⟨m, bl, hok, _, hsome⟩ :=
      from_backend_blacklists_unusable_qubits exampleBackend (by decide) 0
        (by decide)
    obtain ⟨h1, h2⟩ := hsome 42 rfl
    exact ⟨m, bl, hok, h1, h2⟩

open Utils in
/-- C7 (counterexample): the full formatting function including the
`float(round_val)` narrowing on return is not idempotent.  At input
`0.3` — the binary64 double `5404319552844595 / 2^54` — one application
truncates to the decimal `0.299` and returns the nearest double
`5386305154335113 / 2^54`, which lies just below `0.299`; a second
application therefore truncates down to `0.298`'s nearest double,
`5368290755825631 / 2^54`, a different value. -/
theorem format_params_float_not_idempotent :
    format_params_float ((5404319552844595 : ℚ) / 2 ^ 54) 3
      = (5386305154335113 : ℚ) / 2 ^ 54 ∧
    format_params_float
        (format_params_float ((5404319552844595 : ℚ) / 2 ^ 54) 3) 3
      = (5368290755825631 : ℚ) / 2 ^ 54 ∧
    format_params_float
        (format_params_float ((5404319552844595 : ℚ) / 2 ^ 54) 3) 3
      ≠ format_params_float ((5404319552844595 : ℚ) / 2 ^ 54) 3 := by
  have hA : format_params ((5404319552844595 : ℚ) / 2 ^ 54) 3 = 299 / 1000 := by
    norm_num [format_params, roundTowardZero]
  have hfl1 : (⌊(673288144291889152 : ℚ) / 125⌋ : ℤ) = 5386305154335113 := by
    rw [Int.floor_eq_iff]
    constructor <;> norm_num
  have hrne1 :
      roundNearestEven ((299 : ℚ) / 1000 * 2 ^ ((52 : ℤ) - (-2)))
        = 5386305154335113 := by
    rw [show (299 : ℚ) / 1000 * 2 ^ ((52 : ℤ) - (-2))
        = 673288144291889152 / 125 by norm_num]
    rw [roundNearestEven, hfl1]
    rw [if_pos (by norm_num)]
  have hB : nearestFloat (299 / 1000) = (5386305154335113 : ℚ) / 2 ^ 54 := by
    rw [nearestFloat_eval (299 / 1000) (-2) 5386305154335113 (by norm_num)
      (by norm_num) (by norm_num) hrne1]
    norm_num
  have hC : format_params ((5386305154335113 : ℚ) / 2 ^ 54) 3 = 298 / 1000 := by
    norm_num [format_params, roundTowardZero]
  have hfl2 : (⌊(671036344478203904 : ℚ) / 125⌋ : ℤ) = 5368290755825631 := by
    rw [Int.floor_eq_iff]
    constructor <;> norm_num
  have hrne2 :
      roundNearestEven ((298 : ℚ) / 1000 * 2 ^ ((52 : ℤ) - (-2)))
        = 5368290755825631 := by
    rw [show (298 : ℚ) / 1000 * 2 ^ ((52 : ℤ) - (-2))
        = 671036344478203904 / 125 by norm_num]
    rw [roundNearestEven, hfl2]
    rw [if_pos (by norm_num)]
  have hD : nearestFloat (298 / 1000) = (5368290755825631 : ℚ) / 2 ^ 54 := by
    rw [nearestFloat_eval (298 / 1000) (-2) 5368290755825631 (by norm_num)
      (by norm_num) (by norm_num) hrne2]
    norm_num
  have h1 : format_params_float ((5404319552844595 : ℚ) / 2 ^ 54) 3
      = (5386305154335113 : ℚ) / 2 ^ 54 := by
    rw [format_params_float, hA, hB]
  have h2 : format_params_float ((5386305154335113 : ℚ) / 2 ^ 54) 3
      = (5368290755825631 : ℚ) / 2 ^ 54 := by
    rw [format_params_float, hC, hD]
  refine ⟨h1, by rw [h1, h2], ?_⟩
  rw [h1, h2]
  norm_num

open Utils in
/-- C7 (amended): the exact decimal truncation step of the sweep-value
formatter — the value of `round_val` before the `float(round_val)`
narrowing on return — is idempotent:
`round_down(round_down(x, d), d) = round_down(x, d)` for every value and
digit count.  The full function including the binary64 narrowing is not
(see the counterexample at input `0.3`). -/
theorem format_params_idempotent (x : ℚ) (d : ℕ) :
    format_params (format_params x d) d = format_params x d := by
  have hp : (0 : ℚ) < 10 ^ d := by positivity
  have hp' : ((10 : ℚ) ^ d) ≠ 0 := ne_of_gt hp
  rw [format_params, format_params, div_mul_cancel₀ _ hp', roundTowardZero_intCast]
